import Mathlib

/-!
Verification development for the live-paper-trader core: a shallow embedding of
the feature engine (features.py), the signal evaluator (signals.py), the trade
lifecycle manager (trade_manager.py, db.py) and the bar orchestrator (main.py),
with theorems settling the specification claims.

Machine floats are modelled as rationals, SQL tables as lists of records, and
the sqlite connection as explicit state passing.
-/

/-! ## Data model (db.py, signals.py) -/

/-- Record of one signal firing, mirroring the dataclass SignalFire in signals.py. -/
structure SignalFire where
  signal : String
  direction : String
  hold_bars : Nat
deriving DecidableEq

/-- Row of the signal_state table in db.py. -/
structure SignalState where
  last_fire_ts : Option Int
  last_fire_dir : Option String
  open_trade_id : Option Nat
deriving DecidableEq

/-- Row of the paper_trades table in db.py. -/
structure Trade where
  id : Nat
  signal : String
  direction : String
  entry_ts : Int
  entry_price : Rat
  exit_ts : Option Int
  exit_price : Option Rat
  hold_bars : Nat
  gross_bps : Option Rat
  status : String
deriving DecidableEq

/-- Trading state held in sqlite: the paper_trades table, the signal_state
table (a total map; the seeded table has exactly the 7 signal rows), and the
AUTOINCREMENT counter for trade ids. -/
structure DB where
  trades : List Trade
  states : String → SignalState
  nextId : Nat

/-- Signal states as seeded by init_db: every signal row has NULL
last_fire_ts, last_fire_dir and open_trade_id. -/
def seedStates : String → SignalState := fun _ => ⟨none, none, none⟩

/-- Empty trading state right after init_db (sqlite AUTOINCREMENT starts at 1). -/
def seedDB : DB := ⟨[], seedStates, 1⟩

/-! ## Signal evaluator (signals.py) -/

/-- Function in_dedup nested in evaluate_signals: a signal is deduplicated when
its last fire is closer than hold_bars * 300 seconds in the past. -/
def inDedup (signal_states : String → SignalState) (current_ts : Int)
    (signal : String) (hold_bars : Nat) : Bool :=
  match (signal_states signal).last_fire_ts with
  | none => false
  | some last => decide (current_ts - last < (hold_bars : Int) * 300)

/-- Feature vector consumed by evaluate_signals (the dict returned by
get_latest_features). Slope signs are discretized trend directions; the
percentile ranks are rationals. -/
structure Features where
  eth_slope_sign : Int
  eth_slope_sign_prev : Int
  btc_slope_sign : Int
  btc_slope_sign_prev : Int
  volume_btc_pct : Rat
  long_liq_btc_pct : Rat
  short_liq_btc_pct : Rat
  total_liq_btc_pct : Rat
deriving DecidableEq

/-- Function evaluate_signals in signals.py: evaluates the 7-signal catalogue
on one feature vector and returns the firings in catalogue order. -/
def evaluateSignals (features : Features) (current_ts : Int)
    (is_new_gateio_reading : Bool) (signal_states : String → SignalState) :
    List SignalFire :=
  let slope := features.eth_slope_sign
  let slope_prev := features.eth_slope_sign_prev
  let btc_slope := features.btc_slope_sign
  let btc_slope_prev := features.btc_slope_sign_prev
  let vol_pct := features.volume_btc_pct
  let ll_pct := features.long_liq_btc_pct
  let sl_pct := features.short_liq_btc_pct
  let tl_pct := features.total_liq_btc_pct
  let eth_flip := slope ≠ slope_prev ∧ slope ≠ 0
  let btc_flip := btc_slope ≠ btc_slope_prev ∧ btc_slope ≠ 0
  let bearish_eth_flip := slope = -1 ∧ slope_prev ≠ -1
  (if eth_flip ∧ inDedup signal_states current_ts "CA-1" 8 = false then
    [⟨"CA-1", if slope = 1 then "LONG" else "SHORT", 8⟩] else [])
  ++ (if btc_flip ∧ inDedup signal_states current_ts "CA-2" 8 = false then
    [⟨"CA-2", if btc_slope = 1 then "LONG" else "SHORT", 8⟩] else [])
  ++ (if eth_flip ∧ vol_pct ≥ 4/5 ∧ inDedup signal_states current_ts "VS-2" 12 = false then
    [⟨"VS-2", if slope = 1 then "LONG" else "SHORT", 12⟩] else [])
  ++ (if eth_flip ∧ vol_pct ≥ 4/5 ∧ tl_pct ≥ 7/10 ∧
        inDedup signal_states current_ts "VS-3" 12 = false then
    [⟨"VS-3", if slope = 1 then "LONG" else "SHORT", 12⟩] else [])
  ++ (if is_new_gateio_reading = true ∧ ll_pct ≥ 9/10 ∧
        inDedup signal_states current_ts "LQ-1" 8 = false then
    [⟨"LQ-1", "SHORT", 8⟩] else [])
  ++ (if is_new_gateio_reading = true ∧ sl_pct ≥ 9/10 ∧
        inDedup signal_states current_ts "LQ-2" 8 = false then
    [⟨"LQ-2", "LONG", 8⟩] else [])
  ++ (if bearish_eth_flip ∧ ll_pct ≥ 7/10 ∧
        inDedup signal_states current_ts "LQ-3" 8 = false then
    [⟨"LQ-3", "SHORT", 8⟩] else [])

/-! ## Trade lifecycle (db.py, trade_manager.py) -/

/-- Function open_trade in db.py: inserts an OPEN trade row with the next
AUTOINCREMENT id and updates the signal_state row of its signal. -/
def openTrade (db : DB) (signal direction : String) (entry_ts : Int)
    (entry_price : Rat) (hold_bars : Nat) : DB × Nat :=
  let tid := db.nextId
  let t : Trade :=
    ⟨tid, signal, direction, entry_ts, entry_price, none, none, hold_bars, none, "OPEN"⟩
  (⟨db.trades ++ [t],
    fun s => if s = signal then ⟨some entry_ts, some direction, some tid⟩ else db.states s,
    tid + 1⟩, tid)

/-- Direction multiplier used by close_trade: 1 for LONG, -1 otherwise. -/
def dirSign (direction : String) : Rat := if direction = "LONG" then 1 else -1

/-- Gross result in basis points computed by close_trade. -/
def grossBps (direction : String) (entry_price exit_price : Rat) : Rat :=
  (exit_price / entry_price - 1) * 10000 * dirSign direction

/-- Value dict returned by close_trade. -/
structure CloseResult where
  trade_id : Nat
  signal : String
  direction : String
  entry_price : Rat
  exit_price : Rat
  gross_bps : Rat
  exit_ts : Int
deriving DecidableEq

/-- Function close_trade in db.py. The SELECT fetches the row with the given
id; when no row exists the Python code unpacks None and raises, modelled here
by none. Note that the row's status is never inspected: an already CLOSED
trade is updated again. The UPDATE sets exit fields and status on every row
with the id, and the signal_state row of the trade's signal is cleared. -/
def closeTrade (db : DB) (trade_id : Nat) (exit_ts : Int) (exit_price : Rat) :
    Option (DB × CloseResult) :=
  match db.trades.find? (fun t => t.id == trade_id) with
  | none => none
  | some row =>
    let gross := grossBps row.direction row.entry_price exit_price
    some (⟨db.trades.map (fun t =>
            if t.id = trade_id then
              { t with exit_ts := some exit_ts, exit_price := some exit_price,
                       gross_bps := some gross, status := "CLOSED" }
            else t),
          fun s => if s = row.signal then { db.states s with open_trade_id := none }
                   else db.states s,
          db.nextId⟩,
         ⟨trade_id, row.signal, row.direction, row.entry_price, exit_price, gross, exit_ts⟩)

/-- Insertion step of an insertion sort that keeps list order stable for equal
keys, used to model the ORDER BY clauses of the SELECT queries in db.py. -/
def insertLE {α : Type} (key : α → Int) (c : α) : List α → List α
  | [] => [c]
  | d :: ds => if key c ≤ key d then c :: d :: ds else d :: insertLE key c ds

/-- Insertion sort by an integer key, ascending. -/
def sortLE {α : Type} (key : α → Int) : List α → List α
  | [] => []
  | c :: cs => insertLE key c (sortLE key cs)

/-- Function get_open_trades in db.py: all OPEN trades ordered by entry_ts. -/
def getOpenTrades (db : DB) : List Trade :=
  sortLE (fun t => t.entry_ts) (db.trades.filter (fun t => t.status == "OPEN"))

/-- Loop body of process_signals: skip the firing when the snapshot of signal
states shows an open trade for its signal, otherwise open a trade. -/
def processStep (snap : String → SignalState) (current_ts : Int) (current_price : Rat)
    (d : DB) (fire : SignalFire) : DB :=
  if (snap fire.signal).open_trade_id = none then
    (openTrade d fire.signal fire.direction current_ts current_price fire.hold_bars).1
  else d

/-- Function process_signals in trade_manager.py. The signal states are read
once into a local snapshot before the loop; each firing is skipped when the
snapshot shows an open trade for its signal, otherwise a trade is opened. -/
def processSignals (db : DB) (fires : List SignalFire) (current_ts : Int)
    (current_price : Rat) : DB :=
  fires.foldl (processStep db.states current_ts current_price) db

/-- Expiry test in check_exits: a trade is due when it has been held for at
least hold_bars * 300 seconds. -/
def dueB (current_ts : Int) (t : Trade) : Prop :=
  (t.hold_bars : Int) * 300 ≤ current_ts - t.entry_ts

instance (current_ts : Int) (t : Trade) : Decidable (dueB current_ts t) := by
  unfold dueB; infer_instance

/-- Loop body of check_exits: close the snapshot trade when it is due. -/
def checkStep (current_ts : Int) (current_price : Rat) (acc : Option DB)
    (trade : Trade) : Option DB :=
  acc.bind (fun d =>
    if dueB current_ts trade then
      (closeTrade d trade.id current_ts current_price).map Prod.fst
    else some d)

/-- Function check_exits in trade_manager.py: snapshot the OPEN trades, then
close every due one in order. A raised exception inside close_trade aborts the
whole loop, modelled by Option bind. -/
def checkExits (db : DB) (current_ts : Int) (current_price : Rat) : Option DB :=
  (getOpenTrades db).foldl (checkStep current_ts current_price) (some db)

/-! ## Raw storage (db.py candle and liquidation tables) -/

/-- Row of the candles_5m table. -/
structure Candle where
  ts : Int
  symbol : String
  openP : Rat
  high : Rat
  low : Rat
  close : Rat
  volume : Rat
deriving DecidableEq, Inhabited

/-- Row of the liquidations_1h table. -/
structure LiqRow where
  ts : Int
  symbol : String
  long_liq_usd : Rat
  short_liq_usd : Rat
deriving DecidableEq, Inhabited

/-- INSERT OR REPLACE semantics of upsert_candles for a single row: the row
with the same (ts, symbol) key is deleted and the new row inserted. -/
def upsertCandle (store : List Candle) (c : Candle) : List Candle :=
  store.filter (fun r => ¬ (r.ts = c.ts ∧ r.symbol = c.symbol)) ++ [c]

/-- INSERT OR REPLACE semantics of upsert_liquidations for a single row. -/
def upsertLiq (store : List LiqRow) (r : LiqRow) : List LiqRow :=
  store.filter (fun q => ¬ (q.ts = r.ts ∧ q.symbol = r.symbol)) ++ [r]

/-- Function get_candles in db.py: rows of one symbol ordered by ts ascending,
LIMIT applied after ordering. -/
def getCandlesQ (store : List Candle) (symbol : String) (limit : Nat) : List Candle :=
  (sortLE (fun c => c.ts) (store.filter (fun c => c.symbol == symbol))).take limit

/-- Function get_liquidations in db.py. -/
def getLiquidationsQ (store : List LiqRow) (symbol : String) (limit : Nat) : List LiqRow :=
  (sortLE (fun r => r.ts) (store.filter (fun r => r.symbol == symbol))).take limit

/-! ## Feature engine (features.py)

The pandas pipeline is embedded over lists of (timestamp, value) pairs.
NaN-carrying series are Option-valued; fillna(0) collapses the Option. -/

/-- Start of the hour containing a unix timestamp (pandas resample bins by
floor to the hour; Int division in Lean is Euclidean and floors here). -/
def hourOf (ts : Int) : Int := 3600 * (ts / 3600)

/-- Step of resample("1h").last(): walk the ascending series keeping, per
hour bin, the last value seen; the accumulator holds the bins newest first. -/
def resampleLastAux (acc : List (Int × Rat)) : List (Int × Rat) → List (Int × Rat)
  | [] => acc.reverse
  | (t, c) :: rest =>
    match acc with
    | [] => resampleLastAux [(hourOf t, c)] rest
    | (h, v) :: tl =>
      if h = hourOf t then resampleLastAux ((h, c) :: tl) rest
      else resampleLastAux ((hourOf t, c) :: (h, v) :: tl) rest

/-- Resample an ascending close series to 1-hour last-value bars, present
hours only (resample("1h").last().dropna() on a series with no NaN values). -/
def resampleLast (xs : List (Int × Rat)) : List (Int × Rat) :=
  resampleLastAux [] xs

/-- Recursive exponential moving average with adjust=False: the first output
is the first input, then y = (1 - alpha) * y + alpha * x. -/
def ewmAux (alpha : Rat) (y : Rat) : List Rat → List Rat
  | [] => []
  | x :: xs => let y' := (1 - alpha) * y + alpha * x
               y' :: ewmAux alpha y' xs

/-- Function Series.ewm(span=20, adjust=False).mean() applied in
compute_eth_slope_sign: smoothing factor 2 / 21 seeded from the first value. -/
def ewm20 : List Rat → List Rat
  | [] => []
  | x :: xs => x :: ewmAux (2/21) x xs

/-- Sign of a rational, the np.sign map onto exactly -1, 0, +1. -/
def ratSign (x : Rat) : Int := if x < 0 then -1 else if x = 0 then 0 else 1

/-- Series.diff(3) followed by np.sign: the first min(3, n) outputs are NaN
(modelled none), then the sign of the 3-step difference. -/
def signedDiff3 (ys : List Rat) : List (Option Int) :=
  List.replicate (min 3 ys.length) none
    ++ List.zipWith (fun a b => some (ratSign (b - a))) ys (ys.drop 3)

/-- Hourly slope-sign series of compute_eth_slope_sign before the 5-minute
carry-forward: hour starts paired with the (possibly NaN) slope sign. -/
def slopeSign1h (candles : List (Int × Rat)) : List (Int × Option Int) :=
  let r := resampleLast candles
  (r.map Prod.fst).zip (signedDiff3 (ewm20 (r.map Prod.snd)))

/-- Value, at key t, of a keyed series read with reindex(method="ffill"): the
value of the last listed key that is at most t, none when every key exceeds t. -/
def lastLE {α : Type} (src : List (Int × α)) (t : Int) : Option α :=
  src.foldl (fun acc p => if p.1 ≤ t then some p.2 else acc) none

/-- Slope sign carried onto one primary timestamp, composing the two reindex
steps of features.py: the hourly series is first carried onto the source's own
5-minute index (compute_eth_slope_sign line 27), that series is then carried
onto the primary index and fillna(0) is applied (compute_features line 79). -/
def slopeAt (src : List (Int × Rat)) (t : Int) : Int :=
  let s1h := slopeSign1h src
  let stage1 := src.map (fun p => (p.1, lastLE s1h p.1))
  (((lastLE stage1 t).getD none).getD none).getD 0

/-- Slope-sign series of one asset evaluated on its own 5-minute index, the
combination applied to the primary asset in compute_features. -/
def slopeSign5m (candles : List (Int × Rat)) : List (Int × Int) :=
  candles.map (fun p => (p.1, slopeAt candles p.1))

/-- Series.shift(1) followed by fillna(0): the previous-bar series. -/
def shift1fill0 : List Int → List Int
  | [] => []
  | x :: xs => 0 :: (x :: xs).dropLast

/-- Average-rank percentile of the current value x within its trailing window
w (x included), as computed by rolling(...).rank(pct=True): ties receive their
average rank, and the rank is divided by the window size. -/
def avgRankPct (w : List Rat) (x : Rat) : Rat :=
  let lt := (w.filter (fun v => decide (v < x))).length
  let eq := (w.filter (fun v => decide (v = x))).length
  ((lt : Rat) + ((eq : Rat) + 1) / 2) / (w.length : Rat)

/-- Series.rolling(window, min_periods=1).rank(pct=True): at each position the
average-rank percentile of the current value within the trailing window of up
to `window` values ending at it. -/
def rollingRankPct (window : Nat) (xs : List Rat) : List Rat :=
  (List.range xs.length).map (fun i =>
    let pre := xs.take (i + 1)
    avgRankPct (pre.drop (pre.length - window)) (xs.getD i 0))

/-- Window length constant ROLLING_WINDOW in features.py (30 days of 5-minute bars). -/
def ROLLING_WINDOW : Nat := 8640

/-- Function compute_features in features.py: the full feature table, one row
per primary (BTC) timestamp in sorted order. The BTC frame is sorted by ts
(set_index("ts").sort_index()); the slope sources use the argument lists as
given; liquidation rows are sorted, totalled hourly, carried forward onto the
primary index with fillna(0), and ranked. -/
def computeFeatures (btcC ethC : List Candle) (liqs : List LiqRow) :
    List (Int × Features) :=
  let btcS := sortLE (fun c => c.ts) btcC
  let volumePct := rollingRankPct ROLLING_WINDOW (btcS.map (fun c => c.volume))
  let ethPairs := ethC.map (fun c => (c.ts, c.close))
  let ethAligned := btcS.map (fun b => slopeAt ethPairs b.ts)
  let ethPrev := shift1fill0 ethAligned
  let btcPairs := btcC.map (fun c => (c.ts, c.close))
  let btcAligned := btcS.map (fun b => slopeAt btcPairs b.ts)
  let btcPrev := shift1fill0 btcAligned
  let liqS := sortLE (fun r => r.ts) liqs
  let liqTriples := liqS.map (fun r =>
    (r.ts, (r.long_liq_usd, r.short_liq_usd, r.long_liq_usd + r.short_liq_usd)))
  let liq5m := btcS.map (fun b => (lastLE liqTriples b.ts).getD (0, 0, 0))
  let longPct := rollingRankPct ROLLING_WINDOW (liq5m.map (fun p => p.1))
  let shortPct := rollingRankPct ROLLING_WINDOW (liq5m.map (fun p => p.2.1))
  let totalPct := rollingRankPct ROLLING_WINDOW (liq5m.map (fun p => p.2.2))
  (List.range btcS.length).map (fun i =>
    ((btcS.getD i default).ts,
     { eth_slope_sign := ethAligned.getD i 0
       eth_slope_sign_prev := ethPrev.getD i 0
       btc_slope_sign := btcAligned.getD i 0
       btc_slope_sign_prev := btcPrev.getD i 0
       volume_btc_pct := volumePct.getD i 0
       long_liq_btc_pct := longPct.getD i 0
       short_liq_btc_pct := shortPct.getD i 0
       total_liq_btc_pct := totalPct.getD i 0 }))

/-- Modelled from the spec (section 4.1 Slope sign), for comparison with the
source pipeline slopeSign5m: resample close to 1-hour last-value bars, smooth
with the factor 2/21 EMA seeded from the first value, take the 3-period
difference, map it to exactly -1, 0, +1, and carry the sign of the last
mapped hour at or before each primary timestamp forward, with every primary
timestamp preceding the first mapped hour set to 0. -/
def slopeSign5mSpec (candles : List (Int × Rat)) : List (Int × Int) :=
  let r := resampleLast candles
  let emas := ewm20 (r.map Prod.snd)
  let mapped := ((r.map Prod.fst).drop 3).zip
    (List.zipWith (fun a b => ratSign (b - a)) emas (emas.drop 3))
  candles.map (fun p => (p.1, (lastLE mapped p.1).getD 0))

/-! ## Bar orchestrator (main.py) -/

/-- Core steps of the candle handler _on_candle whose order the spec constrains. -/
inductive Step where
  | upsert
  | prune
  | features
  | evaluate (fires : List SignalFire)
  | checkExits
  | openFires
deriving DecidableEq

/-- Process-wide state of main.py: the sqlite stores, the trading state, the
last-seen BTC bar timestamp, the Gate.io freshness latch and the feature cache. -/
structure World where
  candles : List Candle
  liqs : List LiqRow
  db : DB
  lastBtcBarTs : Int
  isNewGateio : Bool
  featuresCache : Option Features

/-- Function prune_old_rows in db.py: delete candle and liquidation rows more
than 30 days older than the wall clock, which is passed in explicitly. -/
def pruneOld (now : Int) (w : World) : World :=
  { w with candles := w.candles.filter (fun c => ¬ (c.ts < now - 2592000)),
           liqs := w.liqs.filter (fun r => ¬ (r.ts < now - 2592000)) }

/-- Ingest-and-prune stage of _on_candle for a BTC candle: upsert the candle,
record the bar timestamp, and prune at the hourly cadence gate (a new bar
whose timestamp sits in the first 5 minutes of its hour). -/
def barW3 (now : Int) (w : World) (c : Candle) : World × List Step :=
  let w1 : World := { w with candles := upsertCandle w.candles c }
  let w2 : World := { w1 with lastBtcBarTs := c.ts }
  if decide (c.ts ≠ w.lastBtcBarTs) = true ∧ c.ts % 3600 < 300
  then (pruneOld now w2, [Step.upsert, Step.prune])
  else (w2, [Step.upsert])

/-- Data-sufficiency guard of _on_candle before recomputing features. -/
def dataOK (w : World) : Prop :=
  ¬ ((getCandlesQ w.candles "BTC-USD" 8640).length < 2
      ∨ getCandlesQ w.candles "ETH-USD" 8640 = []
      ∨ getLiquidationsQ w.liqs "BTC" 720 = [])

instance (w : World) : Decidable (dataOK w) := by unfold dataOK; infer_instance

/-- Candle handler _on_candle in main.py, returning the successor state (none
models an uncaught exception) and the trace of core steps it ran, in order.
The wall clock used by the prune query is the explicit `now` argument. -/
def onCandle (now : Int) (w : World) (c : Candle) : Option World × List Step :=
  if c.symbol ≠ "BTC-USD" then
    (some { w with candles := upsertCandle w.candles c }, [Step.upsert])
  else
  let ts := c.ts
  let price := c.close
  let isNewBar : Bool := decide (ts ≠ w.lastBtcBarTs)
  let w3 := (barW3 now w c).1
  let tr3 := (barW3 now w c).2
  if dataOK w3 then
    match (computeFeatures (getCandlesQ w3.candles "BTC-USD" 8640)
            (getCandlesQ w3.candles "ETH-USD" 8640)
            (getLiquidationsQ w3.liqs "BTC" 720)).getLast? with
    | none => (none, tr3)
    | some latestRow =>
      let latest := latestRow.2
      let w4 : World := { w3 with featuresCache := some latest }
      let tr4 := tr3 ++ [Step.features]
      if isNewBar = false then (some w4, tr4) else
      let fires := evaluateSignals latest ts w4.isNewGateio w4.db.states
      let w5 : World := { w4 with isNewGateio := false }
      let tr5 := tr4 ++ [Step.evaluate fires]
      match checkExits w5.db ts price with
      | none => (none, tr5 ++ [Step.checkExits])
      | some db1 =>
        let w6 : World := { w5 with db := db1 }
        let tr6 := tr5 ++ [Step.checkExits]
        if fires.isEmpty then (some w6, tr6)
        else (some { w6 with db := processSignals db1 fires ts price },
              tr6 ++ [Step.openFires])
  else (some w3, tr3)

/-! ## Invariants and operation sequences for the trade lifecycle -/

/-- Trade ids in the store are pairwise distinct (sqlite primary key). -/
def IdsNodup (db : DB) : Prop := (db.trades.map (fun t => t.id)).Nodup

/-- Every stored trade id is below the AUTOINCREMENT counter. -/
def IdsBelow (db : DB) : Prop := ∀ t ∈ db.trades, t.id < db.nextId

/-- Every OPEN trade is referenced by the signal_state row of its signal. -/
def OpenRef (db : DB) : Prop :=
  ∀ t ∈ db.trades, t.status = "OPEN" → (db.states t.signal).open_trade_id = some t.id

/-- Consistency invariant of the trading store. -/
def DBInv (db : DB) : Prop := IdsNodup db ∧ IdsBelow db ∧ OpenRef db

/-- At most one OPEN trade of the given signal exists in the store. -/
def AtMostOneOpen (db : DB) (sig : String) : Prop :=
  ∀ t1 ∈ db.trades, ∀ t2 ∈ db.trades,
    t1.status = "OPEN" → t2.status = "OPEN" → t1.signal = sig → t2.signal = sig → t1 = t2

instance (db : DB) (sig : String) : Decidable (AtMostOneOpen db sig) := by
  unfold AtMostOneOpen; infer_instance

instance (db : DB) : Decidable (DBInv db) := by
  unfold DBInv IdsNodup IdsBelow OpenRef; infer_instance

/-- One call of the trade lifecycle manager: Open-on-firing or Check-exits. -/
inductive TradeOp where
  | proc (fires : List SignalFire) (ts : Int) (price : Rat)
  | check (ts : Int) (price : Rat)

/-- Interpretation of one lifecycle call on the trading store. -/
def runOp (db : DB) : TradeOp → Option DB
  | TradeOp.proc fires ts price => some (processSignals db fires ts price)
  | TradeOp.check ts price => checkExits db ts price

/-- Interpretation of a call sequence, aborting on a raised exception. -/
def runOps (db : DB) : List TradeOp → Option DB
  | [] => some db
  | op :: ops => (runOp db op).bind (fun d => runOps d ops)

/-- A process_signals batch is well formed when its firings name pairwise
distinct signals, as every evaluate_signals result does. -/
def TradeOpOk : TradeOp → Prop
  | TradeOp.proc fires _ _ => (fires.map (fun f => f.signal)).Nodup
  | TradeOp.check _ _ => True

instance : DecidablePred TradeOpOk := fun op => by
  cases op with
  | proc fires ts price =>
    exact inferInstanceAs (Decidable (fires.map (fun f => f.signal)).Nodup)
  | check ts price => exact isTrue trivial

/-- Exit fields written by close_trade onto a due trade. -/
def closeFields (current_ts : Int) (price : Rat) (t : Trade) : Trade :=
  { t with exit_ts := some current_ts, exit_price := some price,
           gross_bps := some (grossBps t.direction t.entry_price price),
           status := "CLOSED" }

/-- Hold duration of each signal in the catalogue (bars). -/
def holdOfSignal (s : String) : Nat := if s = "VS-2" ∨ s = "VS-3" then 12 else 8

/-! ## Concrete inputs used by counterexamples and witnesses -/

/-- Signal states where only CA-1 has a recorded fire, at time 0. -/
def dedupStates : String → SignalState :=
  fun s => if s = "CA-1" then ⟨some 0, some "LONG", none⟩ else ⟨none, none, none⟩

/-- Feature vector with a 0 to +1 reference slope flip and all ranks 0. -/
def flipFeat : Features := ⟨1, 0, 0, 0, 0, 0, 0, 0⟩

/-- A CA-1 LONG firing. -/
def fireCA1 : SignalFire := ⟨"CA-1", "LONG", 8⟩

/-- One Open-on-firing call whose batch fires CA-1 twice. -/
def dupProcOps : List TradeOp := [TradeOp.proc [fireCA1, fireCA1] 0 100]

/-- Open CA-1, let it mature, reopen on the same bar. -/
def seqOps : List TradeOp :=
  [TradeOp.proc [fireCA1] 0 100, TradeOp.check 2400 101, TradeOp.proc [fireCA1] 2400 101]

/-- Store holding one OPEN SHORT trade with entry price 100 and hold 8. -/
def dbShort : DB :=
  ⟨[⟨1, "CA-1", "SHORT", 0, 100, none, none, 8, none, "OPEN"⟩],
   fun s => if s = "CA-1" then ⟨some 0, some "SHORT", some 1⟩ else ⟨none, none, none⟩, 2⟩

/-- Store holding one already CLOSED trade. -/
def dbClosedT : DB :=
  ⟨[⟨1, "CA-1", "LONG", 0, 100, some 2400, some 110, 8, some 1000, "CLOSED"⟩],
   seedStates, 2⟩

/-- Small ascending close series spanning five hours. -/
def wit7 : List (Int × Rat) := [(0, 1), (3600, 3), (7200, 2), (10800, 6), (14400, 4)]

/-- Series of the rolling-rank scenario: window 1..5 and then a tying 3. -/
def xs8 : List Rat := [1, 2, 3, 4, 5, 3]

/-- BTC-USD candle with all price fields and the volume set to p. -/
def candB (t : Int) (p : Rat) : Candle := ⟨t, "BTC-USD", p, p, p, p, p⟩

/-- ETH-USD candle. -/
def candE (t : Int) (p : Rat) : Candle := ⟨t, "ETH-USD", p, p, p, p, p⟩

/-- BTC liquidation row with both legs 1. -/
def liqB (t : Int) : LiqRow := ⟨t, "BTC", 1, 1⟩

/-- World about to receive a new BTC bar at ts 600. -/
def w5c : World := ⟨[candB 300 1, candE 300 1], [liqB 0], seedDB, 300, false, none⟩

/-- Recognizer for the evaluator step of a trace. -/
def isEvalStep : Step → Bool
  | Step.evaluate _ => true
  | _ => false

/-! ## Helper lemmas -/

theorem mem_ite_singleton {α : Type} {c : Prop} [Decidable c] {x f : α}
    (h : f ∈ (if c then [x] else ([] : List α))) : c ∧ f = x := by
  by_cases hc : c
  · rw [if_pos hc] at h
    exact ⟨hc, by simpa using h⟩
  · rw [if_neg hc] at h
    simp at h

theorem insertLE_perm {α : Type} (key : α → Int) (c : α) (l : List α) :
    (insertLE key c l).Perm (c :: l) := by
  induction l with
  | nil => simp [insertLE]
  | cons d ds ih =>
    simp only [insertLE]
    by_cases h : key c ≤ key d
    · rw [if_pos h]
    · rw [if_neg h]
      exact (ih.cons d).trans (List.Perm.swap c d ds)

theorem sortLE_perm {α : Type} (key : α → Int) (l : List α) :
    (sortLE key l).Perm l := by
  induction l with
  | nil => simp [sortLE]
  | cons c cs ih => exact (insertLE_perm key c (sortLE key cs)).trans (ih.cons c)

theorem mem_sortLE {α : Type} {key : α → Int} {l : List α} {x : α} :
    x ∈ sortLE key l ↔ x ∈ l := (sortLE_perm key l).mem_iff

theorem mem_getOpenTrades {db : DB} {t : Trade} :
    t ∈ getOpenTrades db ↔ t ∈ db.trades ∧ t.status = "OPEN" := by
  unfold getOpenTrades
  rw [mem_sortLE, List.mem_filter]
  simp

theorem getOpenTrades_ids_nodup {db : DB} (h : IdsNodup db) :
    ((getOpenTrades db).map (fun t => t.id)).Nodup := by
  have hperm :
      ((db.trades.filter (fun t => t.status == "OPEN")).map (fun t => t.id)).Perm
        ((getOpenTrades db).map (fun t => t.id)) :=
    ((sortLE_perm (fun t : Trade => t.entry_ts) _).map (fun t : Trade => t.id)).symm
  have hsub :
      ((db.trades.filter (fun t => t.status == "OPEN")).map (fun t => t.id)).Sublist
        (db.trades.map (fun t => t.id)) :=
    List.Sublist.map (fun t => t.id) (List.filter_sublist db.trades)
  exact hperm.nodup (hsub.nodup h)

theorem eq_of_ids_eq {db : DB} (h : IdsNodup db) {t1 t2 : Trade}
    (h1 : t1 ∈ db.trades) (h2 : t2 ∈ db.trades) (hid : t1.id = t2.id) : t1 = t2 :=
  List.inj_on_of_nodup_map h h1 h2 hid

theorem processSignals_skip_all (db : DB) (ts : Int) (price : Rat) :
    ∀ fires : List SignalFire,
      (∀ f ∈ fires, (db.states f.signal).open_trade_id ≠ none) →
      processSignals db fires ts price = db
  | [], _ => rfl
  | g :: gs, h => by
    unfold processSignals
    rw [List.foldl_cons]
    have hskip : processStep db.states ts price db g = db := by
      unfold processStep
      rw [if_neg (h g (List.mem_cons_self g gs))]
    rw [hskip]
    exact processSignals_skip_all db ts price gs
      (fun f hf => h f (List.mem_cons_of_mem g hf))

/-- Claim C10: a firing whose signal already has an open trade is dropped with
no state change at all: process_signals opens no trade and leaves every
signal_state row, in particular last_fire_ts, untouched, so a dropped firing
does not restart the dedup window. Stated for a batch all of whose firings hit
signals with open trades; the store is returned unchanged. -/
theorem C10_dropped_firing_frame (db : DB) (fires : List SignalFire) (ts : Int)
    (price : Rat) (h : ∀ f ∈ fires, (db.states f.signal).open_trade_id ≠ none) :
    processSignals db fires ts price = db :=
  processSignals_skip_all db ts price fires h

theorem C10_witness : processSignals dbShort [fireCA1] 500 105 = dbShort :=
  C10_dropped_firing_frame dbShort [fireCA1] 500 105 (by decide)

/-- Claim C2: once a signal's recorded last fire is t0, evaluate_signals emits
no firing of that signal at any evaluation time t with t0 < t < t0 + h * 300
(h its catalogue hold); a signal with no recorded fire is never suppressed by
dedup; and at exactly t = t0 + h * 300 a triggered signal may fire again
(shown concretely for CA-1 with t0 = 0, h = 8, t = 2400). -/
theorem C2_dedup :
    (∀ (features : Features) (t t0 : Int) (fresh : Bool)
       (states : String → SignalState) (sig : String),
       (states sig).last_fire_ts = some t0 → t0 < t →
       t < t0 + (holdOfSignal sig : Int) * 300 →
       ∀ f ∈ evaluateSignals features t fresh states, f.signal ≠ sig)
    ∧ (∀ (states : String → SignalState) (t : Int) (sig : String) (h : Nat),
       (states sig).last_fire_ts = none → inDedup states t sig h = false)
    ∧ evaluateSignals flipFeat 2400 false dedupStates = [⟨"CA-1", "LONG", 8⟩] := by
  refine ⟨?_, ?_, ?_⟩
  · intro features t t0 fresh states sig hlast h0 hh f hf hfs
    have hd : inDedup states t sig (holdOfSignal sig) = true := by
      unfold inDedup
      rw [hlast]
      simp only [decide_eq_true_eq]
      omega
    simp only [evaluateSignals, List.mem_append] at hf
    rcases hf with ((((((hf | hf) | hf) | hf) | hf) | hf) | hf)
    · obtain ⟨hc, rfl⟩ := mem_ite_singleton hf
      have hs : "CA-1" = sig := hfs
      subst hs
      rw [show holdOfSignal "CA-1" = 8 from rfl] at hd
      rw [hc.2] at hd
      cases hd
    · obtain ⟨hc, rfl⟩ := mem_ite_singleton hf
      have hs : "CA-2" = sig := hfs
      subst hs
      rw [show holdOfSignal "CA-2" = 8 from rfl] at hd
      rw [hc.2] at hd
      cases hd
    · obtain ⟨hc, rfl⟩ := mem_ite_singleton hf
      have hs : "VS-2" = sig := hfs
      subst hs
      rw [show holdOfSignal "VS-2" = 12 from rfl] at hd
      rw [hc.2.2] at hd
      cases hd
    · obtain ⟨hc, rfl⟩ := mem_ite_singleton hf
      have hs : "VS-3" = sig := hfs
      subst hs
      rw [show holdOfSignal "VS-3" = 12 from rfl] at hd
      rw [hc.2.2.2] at hd
      cases hd
    · obtain ⟨hc, rfl⟩ := mem_ite_singleton hf
      have hs : "LQ-1" = sig := hfs
      subst hs
      rw [show holdOfSignal "LQ-1" = 8 from rfl] at hd
      rw [hc.2.2] at hd
      cases hd
    · obtain ⟨hc, rfl⟩ := mem_ite_singleton hf
      have hs : "LQ-2" = sig := hfs
      subst hs
      rw [show holdOfSignal "LQ-2" = 8 from rfl] at hd
      rw [hc.2.2] at hd
      cases hd
    · obtain ⟨hc, rfl⟩ := mem_ite_singleton hf
      have hs : "LQ-3" = sig := hfs
      subst hs
      rw [show holdOfSignal "LQ-3" = 8 from rfl] at hd
      rw [hc.2.2] at hd
      cases hd
  · intro states t sig h hlast
    unfold inDedup
    rw [hlast]
  · norm_num [evaluateSignals, inDedup, flipFeat, dedupStates]

theorem C2_witness : fireCA1 ∉ evaluateSignals flipFeat 100 false dedupStates :=
  fun hmem =>
    C2_dedup.1 flipFeat 100 0 false dedupStates "CA-1" rfl (by decide) (by decide)
      fireCA1 hmem rfl

/-- Claim C4: with a 0 to +1 reference slope flip, an unchanged BTC slope,
volume rank 0.85, total-liq rank 0.75, long-liq rank 0.50, any short-liq rank
below 0.90, evaluation time 1000, a false fresh flag and no signal in dedup,
evaluate_signals returns exactly CA-1(LONG,8), VS-2(LONG,12), VS-3(LONG,12)
and no LQ firing. -/
theorem C4_scenario (b : Int) (sl : Rat) (hsl : sl < 9/10) :
    evaluateSignals ⟨1, 0, b, b, 17/20, 1/2, sl, 3/4⟩ 1000 false seedStates
      = [⟨"CA-1", "LONG", 8⟩, ⟨"VS-2", "LONG", 12⟩, ⟨"VS-3", "LONG", 12⟩] := by
  norm_num [evaluateSignals, inDedup, seedStates]

theorem C4_witness :
    evaluateSignals ⟨1, 0, 0, 0, 17/20, 1/2, 1/2, 3/4⟩ 1000 false seedStates
      = [⟨"CA-1", "LONG", 8⟩, ⟨"VS-2", "LONG", 12⟩, ⟨"VS-3", "LONG", 12⟩] :=
  C4_scenario 0 (1/2) (by norm_num)

theorem seedDB_inv : DBInv seedDB :=
  ⟨List.nodup_nil, fun t ht => absurd ht (List.not_mem_nil t),
   fun t ht => absurd ht (List.not_mem_nil t)⟩

theorem openTrade_inv {db : DB} {signal direction : String} {ts : Int}
    {price : Rat} {hold : Nat} (hinv : DBInv db)
    (hfree : (db.states signal).open_trade_id = none) :
    DBInv (openTrade db signal direction ts price hold).1 := by
  obtain ⟨hn, hb, ho⟩ := hinv
  refine ⟨?_, ?_, ?_⟩
  · unfold IdsNodup openTrade
    simp only [List.map_append, List.map_cons, List.map_nil]
    rw [List.nodup_append]
    refine ⟨hn, List.nodup_singleton _, ?_⟩
    intro a ha hmem
    simp only [List.mem_singleton] at hmem
    obtain ⟨t, ht, rfl⟩ := List.mem_map.mp ha
    exact absurd hmem (Nat.ne_of_lt (hb t ht))
  · intro t ht
    simp only [openTrade, List.mem_append, List.mem_singleton] at ht
    rcases ht with ht | rfl
    · exact Nat.lt_succ_of_lt (hb t ht)
    · exact Nat.lt_succ_self _
  · intro t ht hstat
    simp only [openTrade, List.mem_append, List.mem_singleton] at ht
    simp only [openTrade]
    rcases ht with ht | rfl
    · by_cases hsig : t.signal = signal
      · exfalso
        have hcontra := ho t ht hstat
        rw [hsig, hfree] at hcontra
        cases hcontra
      · rw [if_neg hsig]
        exact ho t ht hstat
    · rw [if_pos rfl]

theorem processSignals_inv (ts : Int) (price : Rat) :
    ∀ (fires : List SignalFire) (snap : String → SignalState) (d : DB),
      DBInv d →
      ((fires.map (fun f => f.signal)).Nodup) →
      (∀ f ∈ fires, snap f.signal = d.states f.signal) →
      DBInv (fires.foldl (processStep snap ts price) d)
  | [], _, _, hinv, _, _ => hinv
  | g :: gs, snap, d, hinv, hnd, hsnap => by
    rw [List.foldl_cons]
    rw [List.map_cons, List.nodup_cons] at hnd
    by_cases hopen : (snap g.signal).open_trade_id = none
    · have hstep : processStep snap ts price d g =
          (openTrade d g.signal g.direction ts price g.hold_bars).1 := by
        unfold processStep
        rw [if_pos hopen]
      rw [hstep]
      refine processSignals_inv ts price gs snap _ ?_ hnd.2 ?_
      · exact openTrade_inv hinv (hsnap g (List.mem_cons_self g gs) ▸ hopen)
      · intro f hf
        have hne : f.signal ≠ g.signal := by
          intro he
          exact hnd.1 (he ▸ List.mem_map_of_mem (fun x => x.signal) hf)
        show snap f.signal = (if f.signal = g.signal then _ else d.states f.signal)
        rw [if_neg hne]
        exact hsnap f (List.mem_cons_of_mem g hf)
    · have hstep : processStep snap ts price d g = d := by
        unfold processStep
        rw [if_neg hopen]
      rw [hstep]
      exact processSignals_inv ts price gs snap d hinv hnd.2
        (fun f hf => hsnap f (List.mem_cons_of_mem g hf))

theorem closeMap_inv {d : DB} {u : Trade} (hn : IdsNodup d) (hb : IdsBelow d)
    (ho : OpenRef d) (hu : u ∈ d.trades) (hopen : u.status = "OPEN")
    (ts : Int) (price : Rat) :
    DBInv ⟨d.trades.map (fun t => if t.id = u.id then closeFields ts price u else t),
           fun s => if s = u.signal then { d.states s with open_trade_id := none }
                    else d.states s,
           d.nextId⟩ := by
  refine ⟨?_, ?_, ?_⟩
  · show ((d.trades.map (fun t => if t.id = u.id then closeFields ts price u else t)).map
      (fun t => t.id)).Nodup
    rw [List.map_map]
    have hids : d.trades.map ((fun t : Trade => t.id)
        ∘ (fun t => if t.id = u.id then closeFields ts price u else t))
        = d.trades.map (fun t => t.id) := by
      apply List.map_congr_left
      intro t ht
      by_cases hid : t.id = u.id
      · simp only [Function.comp_apply, if_pos hid]
        rw [show (closeFields ts price u).id = u.id from rfl, hid]
      · simp only [Function.comp_apply, if_neg hid]
    rw [hids]
    exact hn
  · intro t' ht'
    obtain ⟨t, ht, heq⟩ := List.mem_map.mp ht'
    by_cases hid : t.id = u.id
    · rw [if_pos hid] at heq
      rw [← heq]
      show u.id < d.nextId
      exact hb u hu
    · rw [if_neg hid] at heq
      rw [← heq]
      exact hb t ht
  · intro t' ht' hstat
    obtain ⟨t, ht, heq⟩ := List.mem_map.mp ht'
    by_cases hid : t.id = u.id
    · rw [if_pos hid] at heq
      rw [← heq] at hstat
      simp [closeFields] at hstat
    · rw [if_neg hid] at heq
      rw [← heq]
      show (if t.signal = u.signal then { d.states t.signal with open_trade_id := none }
            else d.states t.signal).open_trade_id = some t.id
      rw [← heq] at hstat
      by_cases hsig : t.signal = u.signal
      · exfalso
        have h1 := ho t ht hstat
        have h2 := ho u hu hopen
        rw [hsig] at h1
        rw [h1] at h2
        exact hid (Option.some.inj h2)
      · rw [if_neg hsig]
        exact ho t ht hstat

theorem closeTrade_spec {d : DB} {u : Trade} (hinv : DBInv d)
    (hu : u ∈ d.trades) (hopen : u.status = "OPEN") (ts : Int) (price : Rat) :
    ∃ d' res, closeTrade d u.id ts price = some (d', res) ∧
      d'.trades = d.trades.map
        (fun t => if t.id = u.id then closeFields ts price u else t) ∧
      (∀ s, d'.states s =
        if s = u.signal then { d.states s with open_trade_id := none }
        else d.states s) ∧
      d'.nextId = d.nextId ∧ DBInv d' := by
  obtain ⟨hn, hb, ho⟩ := hinv
  have hsome : (d.trades.find? (fun t => t.id == u.id)).isSome := by
    rw [List.find?_isSome]
    exact ⟨u, hu, by simp⟩
  obtain ⟨row, hrow⟩ := Option.isSome_iff_exists.mp hsome
  have hrid : row.id = u.id := by simpa using List.find?_some hrow
  have hru : row = u := eq_of_ids_eq hn (List.mem_of_find?_eq_some hrow) hu hrid
  rw [hru] at hrow
  have hmapeq : d.trades.map (fun t =>
      if t.id = u.id then
        { t with exit_ts := some ts, exit_price := some price,
                 gross_bps := some (grossBps u.direction u.entry_price price),
                 status := "CLOSED" }
      else t)
      = d.trades.map (fun t => if t.id = u.id then closeFields ts price u else t) := by
    apply List.map_congr_left
    intro t ht
    by_cases hid : t.id = u.id
    · have htu : t = u := eq_of_ids_eq hn ht hu hid
      rw [htu, if_pos rfl, if_pos rfl]
      exact rfl
    · rw [if_neg hid, if_neg hid]
  have hclose : closeTrade d u.id ts price =
      some (⟨d.trades.map (fun t =>
              if t.id = u.id then
                { t with exit_ts := some ts, exit_price := some price,
                         gross_bps := some (grossBps u.direction u.entry_price price),
                         status := "CLOSED" }
              else t),
             fun s => if s = u.signal then { d.states s with open_trade_id := none }
                      else d.states s,
             d.nextId⟩,
            ⟨u.id, u.signal, u.direction, u.entry_price, price,
             grossBps u.direction u.entry_price price, ts⟩) := by
    unfold closeTrade
    rw [hrow]
  refine ⟨_, _, hclose, hmapeq, fun s => rfl, rfl, ?_⟩
  have hdb : (⟨d.trades.map (fun t =>
        if t.id = u.id then
          { t with exit_ts := some ts, exit_price := some price,
                   gross_bps := some (grossBps u.direction u.entry_price price),
                   status := "CLOSED" }
        else t),
      fun s => if s = u.signal then { d.states s with open_trade_id := none }
               else d.states s,
      d.nextId⟩ : DB)
      = ⟨d.trades.map (fun t => if t.id = u.id then closeFields ts price u else t),
         fun s => if s = u.signal then { d.states s with open_trade_id := none }
                  else d.states s,
         d.nextId⟩ := by
    rw [hmapeq]
  rw [hdb]
  exact closeMap_inv hn hb ho hu hopen ts price

theorem checkFold_spec (ts : Int) (price : Rat) :
    ∀ (S : List Trade) (d : DB),
      DBInv d →
      (∀ u ∈ S, u ∈ d.trades ∧ u.status = "OPEN") →
      ((S.map (fun t => t.id)).Nodup) →
      ∃ d', S.foldl (checkStep ts price) (some d) = some d' ∧
        DBInv d' ∧
        d'.nextId = d.nextId ∧
        (∀ u ∈ S, dueB ts u → closeFields ts price u ∈ d'.trades) ∧
        (∀ u ∈ S, dueB ts u → (d'.states u.signal).open_trade_id = none) ∧
        (∀ t ∈ d.trades, (∀ u ∈ S, dueB ts u → t.id ≠ u.id) → t ∈ d'.trades) ∧
        (∀ s, (d.states s).open_trade_id = none → (d'.states s).open_trade_id = none) ∧
        (∀ t' ∈ d'.trades,
          (∃ u ∈ S, dueB ts u ∧ t' = closeFields ts price u) ∨
          (t' ∈ d.trades ∧ ∀ u ∈ S, dueB ts u → t'.id ≠ u.id))
  | [], d, hinv, _, _ =>
    ⟨d, rfl, hinv, rfl,
      fun u hu => absurd hu (List.not_mem_nil u),
      fun u hu => absurd hu (List.not_mem_nil u),
      fun t ht _ => ht,
      fun _ h => h,
      fun t' ht' => Or.inr ⟨ht', fun u hu => absurd hu (List.not_mem_nil u)⟩⟩
  | v :: S, d, hinv, hS, hnd => by
    rw [List.foldl_cons]
    rw [List.map_cons, List.nodup_cons] at hnd
    obtain ⟨hvmem, hvopen⟩ := hS v (List.mem_cons_self v S)
    by_cases hdue : dueB ts v
    · obtain ⟨d1, res, hceq, htr, hst, hnx, hinv1⟩ :=
        closeTrade_spec hinv hvmem hvopen ts price
      have hstep : checkStep ts price (some d) v = some d1 := by
        show (if dueB ts v then (closeTrade d v.id ts price).map Prod.fst else some d)
          = some d1
        rw [if_pos hdue, hceq]
        rfl
      rw [hstep]
      have hS1 : ∀ u ∈ S, u ∈ d1.trades ∧ u.status = "OPEN" := by
        intro u hu
        obtain ⟨humem, huopen⟩ := hS u (List.mem_cons_of_mem v hu)
        have hne : u.id ≠ v.id := by
          intro he
          apply hnd.1
          rw [← he]
          exact List.mem_map_of_mem (fun t => t.id) hu
        refine ⟨?_, huopen⟩
        rw [htr]
        have hval : (if u.id = v.id then closeFields ts price v else u) = u := if_neg hne
        rw [← hval]
        exact List.mem_map_of_mem _ humem
      obtain ⟨d', heq, hinv', hnext, hcl, hclst, hkeep, hmono, hprov⟩ :=
        checkFold_spec ts price S d1 hinv1 hS1 hnd.2
      have hmono0 : ∀ s, (d.states s).open_trade_id = none →
          (d1.states s).open_trade_id = none := by
        intro s hnone
        rw [hst s]
        by_cases hsig : s = v.signal
        · rw [if_pos hsig]
        · rw [if_neg hsig]
          exact hnone
      refine ⟨d', heq, hinv', by rw [hnext, hnx], ?_, ?_, ?_, ?_, ?_⟩
      · intro u hu hud
        rcases List.mem_cons.mp hu with hcase | hu
        · rw [hcase]
          have h1 : closeFields ts price v ∈ d1.trades := by
            rw [htr]
            have hm := List.mem_map_of_mem
              (fun t => if t.id = v.id then closeFields ts price v else t) hvmem
            simpa using hm
          refine hkeep _ h1 ?_
          intro w hw hwd he
          apply hnd.1
          have hvw : v.id = w.id := he
          rw [hvw]
          exact List.mem_map_of_mem (fun t => t.id) hw
        · exact hcl u hu hud
      · intro u hu hud
        rcases List.mem_cons.mp hu with hcase | hu
        · rw [hcase]
          apply hmono
          rw [hst v.signal, if_pos rfl]
        · exact hclst u hu hud
      · intro t ht hno
        have hne : t.id ≠ v.id := hno v (List.mem_cons_self v S) hdue
        have h1 : t ∈ d1.trades := by
          rw [htr]
          have hval : (if t.id = v.id then closeFields ts price v else t) = t := if_neg hne
          rw [← hval]
          exact List.mem_map_of_mem _ ht
        exact hkeep t h1 (fun u hu hud => hno u (List.mem_cons_of_mem v hu) hud)
      · intro s hnone
        exact hmono s (hmono0 s hnone)
      · intro t' ht'
        rcases hprov t' ht' with ⟨u, hu, hud, he⟩ | ⟨htd1, hno⟩
        · exact Or.inl ⟨u, List.mem_cons_of_mem v hu, hud, he⟩
        · rw [htr] at htd1
          obtain ⟨t, ht, heq2⟩ := List.mem_map.mp htd1
          by_cases hid : t.id = v.id
          · rw [if_pos hid] at heq2
            exact Or.inl ⟨v, List.mem_cons_self v S, hdue, heq2.symm⟩
          · rw [if_neg hid] at heq2
            rw [← heq2] at hno
            rw [← heq2]
            refine Or.inr ⟨ht, ?_⟩
            intro u hu hud
            rcases List.mem_cons.mp hu with hcase | hu
            · rw [hcase]
              exact hid
            · exact hno u hu hud
    · have hstep : checkStep ts price (some d) v = some d := by
        show (if dueB ts v then (closeTrade d v.id ts price).map Prod.fst else some d)
          = some d
        rw [if_neg hdue]
      rw [hstep]
      obtain ⟨d', heq, hinv', hnext, hcl, hclst, hkeep, hmono, hprov⟩ :=
        checkFold_spec ts price S d hinv
          (fun u hu => hS u (List.mem_cons_of_mem v hu)) hnd.2
      refine ⟨d', heq, hinv', hnext, ?_, ?_, ?_, hmono, ?_⟩
      · intro u hu hud
        rcases List.mem_cons.mp hu with hcase | hu
        · exact absurd (hcase ▸ hud) hdue
        · exact hcl u hu hud
      · intro u hu hud
        rcases List.mem_cons.mp hu with hcase | hu
        · exact absurd (hcase ▸ hud) hdue
        · exact hclst u hu hud
      · intro t ht hno
        exact hkeep t ht (fun u hu hud => hno u (List.mem_cons_of_mem v hu) hud)
      · intro t' ht'
        rcases hprov t' ht' with ⟨u, hu, hud, he⟩ | ⟨htd, hno⟩
        · exact Or.inl ⟨u, List.mem_cons_of_mem v hu, hud, he⟩
        · refine Or.inr ⟨htd, ?_⟩
          intro u hu hud
          rcases List.mem_cons.mp hu with hcase | hu
          · exact absurd (hcase ▸ hud) hdue
          · exact hno u hu hud

theorem checkExits_spec (db : DB) (ts : Int) (price : Rat) (hinv : DBInv db) :
    ∃ db', checkExits db ts price = some db' ∧
      DBInv db' ∧
      db'.nextId = db.nextId ∧
      (∀ t ∈ db.trades, t.status = "OPEN" → dueB ts t →
        closeFields ts price t ∈ db'.trades) ∧
      (∀ t ∈ db.trades, t.status = "OPEN" → dueB ts t →
        (db'.states t.signal).open_trade_id = none) ∧
      (∀ t ∈ db.trades, ¬(t.status = "OPEN" ∧ dueB ts t) → t ∈ db'.trades) ∧
      (∀ t' ∈ db'.trades,
        (∃ t ∈ db.trades, t.status = "OPEN" ∧ dueB ts t ∧ t' = closeFields ts price t)
        ∨ t' ∈ db.trades) := by
  obtain ⟨d', heq, hinv', hnext, hcl, hclst, hkeep, hmono, hprov⟩ :=
    checkFold_spec ts price (getOpenTrades db) db hinv
      (fun u hu => mem_getOpenTrades.mp hu)
      (getOpenTrades_ids_nodup hinv.1)
  refine ⟨d', heq, hinv', hnext, ?_, ?_, ?_, ?_⟩
  · intro t ht hop hdu
    exact hcl t (mem_getOpenTrades.mpr ⟨ht, hop⟩) hdu
  · intro t ht hop hdu
    exact hclst t (mem_getOpenTrades.mpr ⟨ht, hop⟩) hdu
  · intro t ht hnot
    refine hkeep t ht ?_
    intro u hu hud hid
    obtain ⟨humem, huopen⟩ := mem_getOpenTrades.mp hu
    have htu : t = u := eq_of_ids_eq hinv.1 ht humem hid
    apply hnot
    rw [htu]
    exact ⟨huopen, hud⟩
  · intro t' ht'
    rcases hprov t' ht' with ⟨u, hu, hud, he⟩ | ⟨htd, _⟩
    · obtain ⟨humem, huopen⟩ := mem_getOpenTrades.mp hu
      exact Or.inl ⟨u, humem, huopen, hud, he⟩
    · exact Or.inr htd

theorem runOps_inv :
    ∀ (ops : List TradeOp) (d : DB), DBInv d → (∀ op ∈ ops, TradeOpOk op) →
      ∀ d', runOps d ops = some d' → DBInv d'
  | [], d, hinv, _, d', h => by
    rw [show runOps d [] = some d from rfl] at h
    cases h
    exact hinv
  | op :: ops, d, hinv, hok, d', h => by
    cases op with
    | proc fires ts price =>
      have hnd : (fires.map (fun f => f.signal)).Nodup :=
        hok _ (List.mem_cons_self _ _)
      have h1 : DBInv (processSignals d fires ts price) :=
        processSignals_inv ts price fires d.states d hinv hnd (fun f _ => rfl)
      have h' : runOps (processSignals d fires ts price) ops = some d' := h
      exact runOps_inv ops _ h1 (fun o ho => hok o (List.mem_cons_of_mem _ ho)) d' h'
    | check ts price =>
      obtain ⟨d1, heq, hinv1, _⟩ := checkExits_spec d ts price hinv
      rw [show runOps d (TradeOp.check ts price :: ops)
          = (checkExits d ts price).bind (fun x => runOps x ops) from rfl, heq] at h
      exact runOps_inv ops d1 hinv1 (fun o ho => hok o (List.mem_cons_of_mem _ ho)) d' h

/-- Claim C1 (counterexample): as stated over arbitrary call sequences the
invariant fails. process_signals checks a snapshot of the signal states read
before its loop, so one Open-on-firing call whose batch names the same signal
twice opens two trades for it even though the second firing's signal has a
non-null open_trade_id in the store by then. -/
theorem C1_counterexample :
    runOps seedDB dupProcOps
        = some (processSignals seedDB [fireCA1, fireCA1] 0 100) ∧
      ¬ AtMostOneOpen (processSignals seedDB [fireCA1, fireCA1] 0 100) "CA-1" :=
  ⟨rfl, by decide⟩

/-- Claim C1 (amended): after any sequence of Open-on-firing and Check-exits
calls starting from the seeded signal states, in which each Open-on-firing
batch names pairwise distinct signals (as every evaluate_signals result does),
each signal has at most one OPEN trade: process_signals opens nothing for a
firing whose signal is already referenced in its snapshot, open_trade sets the
reference, and close_trade clears it when the trade is marked CLOSED. -/
theorem C1_at_most_one_open_amended (ops : List TradeOp) (db' : DB)
    (hok : ∀ op ∈ ops, TradeOpOk op)
    (hrun : runOps seedDB ops = some db') (sig : String) :
    AtMostOneOpen db' sig := by
  have hinv : DBInv db' := runOps_inv ops seedDB seedDB_inv hok db' hrun
  intro t1 h1 t2 h2 ho1 ho2 hs1 hs2
  have e1 := hinv.2.2 t1 h1 ho1
  have e2 := hinv.2.2 t2 h2 ho2
  rw [hs1] at e1
  rw [hs2] at e2
  rw [e1] at e2
  exact eq_of_ids_eq hinv.1 h1 h2 (Option.some.inj e2)

theorem C1_witness : AtMostOneOpen ((runOps seedDB seqOps).getD seedDB) "CA-1" :=
  C1_at_most_one_open_amended seqOps ((runOps seedDB seqOps).getD seedDB)
    (by decide) rfl "CA-1"

/-- Claim C3: check_exits closes exactly the OPEN trades whose age reaches
hold_bars * 300: each such trade reappears with exit_ts = ts, exit_price =
price, status CLOSED and gross_bps = (price / entry_price - 1) * 10000 for
LONG and its negation for SHORT; every other trade is untouched and nothing
else is produced. A SHORT trade with entry price 100 checked at entry_ts +
2400 with price 95 closes with gross_bps = 500, and for a positive entry
price a LONG closed above entry has positive gross while a SHORT closed above
entry has negative gross. -/
theorem C3_check_exits :
    (∀ (db : DB) (ts : Int) (price : Rat) (db' : DB), DBInv db →
       checkExits db ts price = some db' →
       (∀ t ∈ db.trades, t.status = "OPEN" → dueB ts t →
          closeFields ts price t ∈ db'.trades) ∧
       (∀ t ∈ db.trades, ¬(t.status = "OPEN" ∧ dueB ts t) → t ∈ db'.trades) ∧
       (∀ t' ∈ db'.trades,
          (∃ t ∈ db.trades, t.status = "OPEN" ∧ dueB ts t ∧ t' = closeFields ts price t)
          ∨ t' ∈ db.trades))
    ∧ (∀ (ts : Int) (price : Rat) (t : Trade),
        (closeFields ts price t).exit_ts = some ts ∧
        (closeFields ts price t).exit_price = some price ∧
        (closeFields ts price t).status = "CLOSED" ∧
        (t.direction = "LONG" →
          (closeFields ts price t).gross_bps
            = some ((price / t.entry_price - 1) * 10000)) ∧
        (t.direction = "SHORT" →
          (closeFields ts price t).gross_bps
            = some (-((price / t.entry_price - 1) * 10000))))
    ∧ (∀ entry price : Rat, 0 < entry → entry < price →
        0 < grossBps "LONG" entry price ∧ grossBps "SHORT" entry price < 0)
    ∧ (checkExits dbShort 2400 95
        = some ((checkExits dbShort 2400 95).getD seedDB) ∧
       ((checkExits dbShort 2400 95).getD seedDB).trades
        = [closeFields 2400 95 ⟨1, "CA-1", "SHORT", 0, 100, none, none, 8, none, "OPEN"⟩] ∧
       grossBps "SHORT" 100 95 = 500 ∧
       (((checkExits dbShort 2400 95).getD seedDB).states "CA-1").open_trade_id
        = none) := by
  refine ⟨?_, ?_, ?_, rfl, rfl, ?_, rfl⟩
  · intro db ts price db' hinv h
    obtain ⟨d', heq, _, _, hcl, _, hkeep, hprov⟩ := checkExits_spec db ts price hinv
    rw [heq] at h
    obtain rfl : d' = db' := Option.some.inj h
    exact ⟨hcl, hkeep, hprov⟩
  · intro ts price t
    refine ⟨rfl, rfl, rfl, ?_, ?_⟩
    · intro hdir
      show some (grossBps t.direction t.entry_price price) = _
      rw [hdir]
      rw [show grossBps "LONG" t.entry_price price
          = (price / t.entry_price - 1) * 10000 * 1 from rfl]
      refine congrArg some ?_
      ring
    · intro hdir
      show some (grossBps t.direction t.entry_price price) = _
      rw [hdir]
      rw [show grossBps "SHORT" t.entry_price price
          = (price / t.entry_price - 1) * 10000 * (-1) from rfl]
      refine congrArg some ?_
      ring
  · intro entry price h0 hlt
    have hd : 1 < price / entry := (one_lt_div h0).mpr hlt
    constructor
    · show 0 < (price / entry - 1) * 10000 * dirSign "LONG"
      rw [show dirSign "LONG" = 1 from rfl]
      nlinarith
    · show (price / entry - 1) * 10000 * dirSign "SHORT" < 0
      rw [show dirSign "SHORT" = -1 from rfl]
      nlinarith
  · rw [show grossBps "SHORT" 100 95 = ((95 : Rat) / 100 - 1) * 10000 * (-1) from rfl]
    norm_num

theorem C3_witness :
    closeFields 2400 95
      (⟨1, "CA-1", "SHORT", 0, 100, none, none, 8, none, "OPEN"⟩ : Trade)
      ∈ ((checkExits dbShort 2400 95).getD seedDB).trades :=
  ((C3_check_exits.1 dbShort 2400 95 ((checkExits dbShort 2400 95).getD seedDB)
      (by decide) rfl).1
    ⟨1, "CA-1", "SHORT", 0, 100, none, none, 8, none, "OPEN"⟩
    (List.mem_singleton.mpr rfl) rfl (by decide))

/-- Claim C6 (code behavior): close_trade guards against neither a missing
row nor an already CLOSED one. A close for a nonexistent id finds no row and
the Python caller aborts on unpacking None (modelled by none), so exit
checking does not continue; a close for an already CLOSED trade silently
rewrites its exit fields (here exit_ts moves from 2400 to 5000), so the store
does not stay unchanged. This contradicts the claimed log-and-skip handling. -/
theorem C6_close_trade_behavior :
    closeTrade seedDB 999 100 50 = none ∧
    dbClosedT.trades.map (fun t => t.exit_ts) = [some 2400] ∧
    (closeTrade dbClosedT 1 5000 90).map
        (fun r => r.1.trades.map (fun t => t.exit_ts))
      = some [some 5000] :=
  ⟨rfl, rfl, rfl⟩

theorem ewmAux_length (alpha : Rat) : ∀ (y : Rat) (xs : List Rat),
    (ewmAux alpha y xs).length = xs.length
  | _, [] => rfl
  | y, x :: xs => by
    show (ewmAux alpha ((1 - alpha) * y + alpha * x) xs).length + 1 = xs.length + 1
    rw [ewmAux_length alpha _ xs]

theorem ewm20_length (xs : List Rat) : (ewm20 xs).length = xs.length := by
  cases xs with
  | nil => rfl
  | cons x xs =>
    show (ewmAux (2/21) x xs).length + 1 = xs.length + 1
    rw [ewmAux_length]

theorem lastLE_cons {β : Type} (k : Int) (v : β) (l : List (Int × β)) (t : Int) :
    lastLE ((k, v) :: l) t
      = l.foldl (fun a p => if p.1 ≤ t then some p.2 else a)
          (if k ≤ t then some v else none) := rfl

theorem lastLE_foldl_acc {β : Type} (t : Int) :
    ∀ (l : List (Int × β)) (acc : Option β),
      l.foldl (fun a p => if p.1 ≤ t then some p.2 else a) acc
        = (lastLE l t).or acc
  | [], acc => by cases acc <;> rfl
  | (k, v) :: l, acc => by
    show l.foldl _ (if k ≤ t then some v else acc) = _
    rw [lastLE_cons]
    by_cases hk : k ≤ t
    · rw [if_pos hk, if_pos hk]
      rw [lastLE_foldl_acc t l (some v)]
      cases lastLE l t <;> rfl
    · rw [if_neg hk, if_neg hk]
      rw [lastLE_foldl_acc t l acc, lastLE_foldl_acc t l none]
      cases lastLE l t <;> rfl

theorem lastLE_append {β : Type} (l1 l2 : List (Int × β)) (t : Int) :
    lastLE (l1 ++ l2) t = (lastLE l2 t).or (lastLE l1 t) := by
  show (l1 ++ l2).foldl _ none = _
  rw [List.foldl_append]
  exact lastLE_foldl_acc t l2 _

theorem lastLE_mem {β : Type} (t : Int) :
    ∀ (l : List (Int × β)) (acc : Option β),
      l.foldl (fun a p => if p.1 ≤ t then some p.2 else a) acc = acc
      ∨ ∃ p ∈ l, l.foldl (fun a p => if p.1 ≤ t then some p.2 else a) acc = some p.2
  | [], acc => Or.inl rfl
  | (k, v) :: l, acc => by
    show (l.foldl _ (if k ≤ t then some v else acc) = acc)
        ∨ ∃ p ∈ (k, v) :: l, l.foldl _ (if k ≤ t then some v else acc) = some p.2
    by_cases hk : k ≤ t
    · rw [if_pos hk]
      rcases lastLE_mem t l (some v) with h | ⟨p, hp, h⟩
      · exact Or.inr ⟨(k, v), List.mem_cons_self _ _, h⟩
      · exact Or.inr ⟨p, List.mem_cons_of_mem _ hp, h⟩
    · rw [if_neg hk]
      rcases lastLE_mem t l acc with h | ⟨p, hp, h⟩
      · exact Or.inl h
      · exact Or.inr ⟨p, List.mem_cons_of_mem _ hp, h⟩

theorem lastLE_some_mem {β : Type} {l : List (Int × β)} {t : Int} {v : β}
    (h : lastLE l t = some v) : v ∈ l.map Prod.snd := by
  rcases lastLE_mem t l none with h0 | ⟨p, hp, h0⟩
  · rw [show lastLE l t = l.foldl (fun a p => if p.1 ≤ t then some p.2 else a) none
      from rfl, h0] at h
    cases h
  · rw [show lastLE l t = l.foldl (fun a p => if p.1 ≤ t then some p.2 else a) none
      from rfl, h0] at h
    obtain rfl : p.2 = v := Option.some.inj h
    exact List.mem_map_of_mem Prod.snd hp

theorem lastLE_all_gt {β : Type} (t : Int) :
    ∀ (l : List (Int × β)) (acc : Option β), (∀ p ∈ l, t < p.1) →
      l.foldl (fun a p => if p.1 ≤ t then some p.2 else a) acc = acc
  | [], _, _ => rfl
  | (k, v) :: l, acc, h => by
    show l.foldl _ (if k ≤ t then some v else acc) = acc
    rw [if_neg (not_le.mpr (h (k, v) (List.mem_cons_self _ _)))]
    exact lastLE_all_gt t l acc (fun p hp => h p (List.mem_cons_of_mem _ hp))

theorem lastLE_self {β : Type} (g : Int → β) (t : Int) :
    ∀ (keys : List Int), keys.Pairwise (· < ·) → t ∈ keys →
      ∀ acc : Option β,
        (keys.map (fun k => (k, g k))).foldl
          (fun a p => if p.1 ≤ t then some p.2 else a) acc = some (g t)
  | [], _, ht, _ => absurd ht (List.not_mem_nil t)
  | k :: keys, hasc, ht, acc => by
    rw [List.pairwise_cons] at hasc
    rw [List.map_cons, List.foldl_cons]
    rcases List.mem_cons.mp ht with hcase | ht
    · rw [← hcase]
      have hinit : (if (t, g t).1 ≤ t then some (t, g t).2 else acc) = some (g t) := by
        show (if t ≤ t then some (g t) else acc) = some (g t)
        rw [if_pos le_rfl]
      rw [hinit]
      apply lastLE_all_gt
      intro p hp
      obtain ⟨k', hk', rfl⟩ := List.mem_map.mp hp
      show t < k'
      rw [hcase]
      exact hasc.1 k' hk'
    · have hk : k < t := hasc.1 t ht
      have hinit : (if (k, g k).1 ≤ t then some (k, g k).2 else acc) = some (g k) := by
        show (if k ≤ t then some (g k) else acc) = some (g k)
        rw [if_pos (le_of_lt hk)]
      rw [hinit]
      exact lastLE_self g t keys hasc.2 ht (some (g k))

theorem lastLE_map_self {β : Type} (g : Int → β) (t : Int) (keys : List Int)
    (hasc : keys.Pairwise (· < ·)) (ht : t ∈ keys) :
    lastLE (keys.map (fun k => (k, g k))) t = some (g t) :=
  lastLE_self g t keys hasc ht none

theorem lastLE_map_value {β γ : Type} (f : β → γ) (t : Int) :
    ∀ (l : List (Int × β)) (acc : Option β),
      (l.map (fun p => (p.1, f p.2))).foldl
          (fun a p => if p.1 ≤ t then some p.2 else a) (acc.map f)
        = (l.foldl (fun a p => if p.1 ≤ t then some p.2 else a) acc).map f
  | [], acc => rfl
  | (k, v) :: l, acc => by
    rw [List.map_cons, List.foldl_cons, List.foldl_cons]
    by_cases hk : k ≤ t
    · have h1 : (if ((k, v).1, f (k, v).2).1 ≤ t then some ((k, v).1, f (k, v).2).2
          else acc.map f) = Option.map f (some v) := by
        show (if k ≤ t then some (f v) else acc.map f) = Option.map f (some v)
        rw [if_pos hk]
        rfl
      have h2 : (if (k, v).1 ≤ t then some (k, v).2 else acc) = some v := by
        show (if k ≤ t then some v else acc) = some v
        rw [if_pos hk]
      rw [h1, h2]
      exact lastLE_map_value f t l (some v)
    · have h1 : (if ((k, v).1, f (k, v).2).1 ≤ t then some ((k, v).1, f (k, v).2).2
          else acc.map f) = Option.map f acc := by
        show (if k ≤ t then some (f v) else acc.map f) = Option.map f acc
        rw [if_neg hk]
      have h2 : (if (k, v).1 ≤ t then some (k, v).2 else acc) = acc := by
        show (if k ≤ t then some v else acc) = acc
        rw [if_neg hk]
      rw [h1, h2]
      exact lastLE_map_value f t l acc

theorem mem_zipWith_exists {α β γ : Type} {f : α → β → γ} :
    ∀ {l : List α} {l' : List β} {x : γ}, x ∈ List.zipWith f l l' →
      ∃ a b, x = f a b
  | [], _, x, h => absurd h (by simp)
  | _ :: _, [], x, h => absurd h (by simp)
  | a :: l, b :: l', x, h => by
    rw [List.zipWith_cons_cons] at h
    rcases List.mem_cons.mp h with hcase | h
    · exact ⟨a, b, hcase⟩
    · exact mem_zipWith_exists h

theorem slopeAt_eq_spec (src : List (Int × Rat))
    (hasc : (src.map Prod.fst).Pairwise (· < ·)) (t : Int)
    (ht : t ∈ src.map Prod.fst) :
    slopeAt src t
      = (lastLE ((((resampleLast src).map Prod.fst).drop 3).zip
          (List.zipWith (fun a b => ratSign (b - a))
            (ewm20 ((resampleLast src).map Prod.snd))
            ((ewm20 ((resampleLast src).map Prod.snd)).drop 3))) t).getD 0 := by
  have hstage : src.map (fun p => (p.1, lastLE (slopeSign1h src) p.1))
      = (src.map Prod.fst).map (fun k => (k, lastLE (slopeSign1h src) k)) := by
    rw [List.map_map]
    exact List.map_congr_left (fun p _ => rfl)
  have hself : lastLE (src.map (fun p => (p.1, lastLE (slopeSign1h src) p.1))) t
      = some (lastLE (slopeSign1h src) t) := by
    rw [hstage]
    exact lastLE_map_self (fun k => lastLE (slopeSign1h src) k) t (src.map Prod.fst)
      hasc ht
  show (((lastLE (src.map (fun p => (p.1, lastLE (slopeSign1h src) p.1))) t).getD
      none).getD none).getD 0 = _
  rw [hself, Option.getD_some]
  set r := resampleLast src with hr
  set hours := r.map Prod.fst with hhours
  set emas := ewm20 (r.map Prod.snd) with hemas
  set ws := List.zipWith (fun a b => ratSign (b - a)) emas (emas.drop 3) with hws
  set m := min 3 emas.length with hm
  have hlen : emas.length = hours.length := by
    rw [hemas, hhours, ewm20_length, List.length_map, List.length_map]
  have hm_le : m ≤ hours.length := by
    rw [hm, hlen]
    exact min_le_right 3 _
  have htake_len : (hours.take m).length = m := by
    rw [List.length_take]
    exact min_eq_left hm_le
  have hsd : signedDiff3 emas = List.replicate m (none : Option Int)
      ++ List.zipWith (fun a b => some (ratSign (b - a))) emas (emas.drop 3) := by
    rw [hm]
    rfl
  have h0 : slopeSign1h src = hours.zip (signedDiff3 emas) := by
    rw [hhours, hemas, hr]
    rfl
  have hsplit : slopeSign1h src
      = (hours.take m).zip (List.replicate m (none : Option Int))
        ++ (hours.drop m).zip
            (List.zipWith (fun a b => some (ratSign (b - a))) emas (emas.drop 3)) := by
    rw [h0, hsd]
    rw [← List.zip_append (by rw [htake_len, List.length_replicate])]
    rw [List.take_append_drop]
  have hB : lastLE ((hours.drop m).zip
        (List.zipWith (fun a b => some (ratSign (b - a))) emas (emas.drop 3))) t
      = (lastLE ((hours.drop m).zip ws) t).map some := by
    have h1 : List.zipWith (fun a b => some (ratSign (b - a))) emas (emas.drop 3)
        = ws.map some := by
      rw [hws, List.map_zipWith]
    rw [h1]
    have h2 : (hours.drop m).zip (ws.map some)
        = ((hours.drop m).zip ws).map (fun p => (p.1, some p.2)) := by
      rw [List.zip_map_right]
      exact List.map_congr_left (fun p _ => rfl)
    rw [h2]
    show (((hours.drop m).zip ws).map (fun p => (p.1, some p.2))).foldl
        (fun a p => if p.1 ≤ t then some p.2 else a) (Option.map some none) = _
    exact lastLE_map_value some t ((hours.drop m).zip ws) none
  have hdropm : hours.drop m = hours.drop 3 := by
    rcases le_total 3 emas.length with h3 | h3
    · rw [hm, min_eq_left h3]
    · have e1 : hours.drop emas.length = [] :=
        List.drop_eq_nil_of_le (by rw [hlen])
      have e2 : hours.drop 3 = [] :=
        List.drop_eq_nil_of_le (by rw [← hlen]; exact h3)
      rw [hm, min_eq_right h3, e1, e2]
  have hA : ∀ v, lastLE ((hours.take m).zip (List.replicate m (none : Option Int))) t
      = some v → v = none := by
    intro v hv
    have hvm := lastLE_some_mem hv
    obtain ⟨p, hp, hpv⟩ := List.mem_map.mp hvm
    rw [← hpv]
    exact List.eq_of_mem_replicate (List.of_mem_zip hp).2
  rw [hsplit, lastLE_append, hB, hdropm]
  cases hB0 : lastLE ((hours.drop 3).zip ws) t with
  | some w => rfl
  | none =>
    cases hA0 : lastLE ((hours.take m).zip (List.replicate m (none : Option Int))) t with
    | none => rfl
    | some v =>
      rw [hA v hA0]
      rfl

theorem slopeSign5m_eq_spec (candles : List (Int × Rat))
    (hasc : (candles.map Prod.fst).Pairwise (· < ·)) :
    slopeSign5m candles = slopeSign5mSpec candles := by
  unfold slopeSign5m slopeSign5mSpec
  apply List.map_congr_left
  intro p hp
  have h := slopeAt_eq_spec candles hasc p.1 (List.mem_map_of_mem Prod.fst hp)
  rw [h]

theorem ratSign_range (x : Rat) : ratSign x = -1 ∨ ratSign x = 0 ∨ ratSign x = 1 := by
  unfold ratSign
  split_ifs
  · left; rfl
  · right; left; rfl
  · right; right; rfl

theorem slopeSign5mSpec_range (candles : List (Int × Rat)) :
    ∀ v ∈ (slopeSign5mSpec candles).map Prod.snd, v = -1 ∨ v = 0 ∨ v = 1 := by
  intro v hv
  simp only [slopeSign5mSpec, List.map_map, List.mem_map, Function.comp] at hv
  obtain ⟨p, hp, hveq⟩ := hv
  rw [← hveq]
  cases hl : lastLE ((((resampleLast candles).map Prod.fst).drop 3).zip
      (List.zipWith (fun a b => ratSign (b - a))
        (ewm20 ((resampleLast candles).map Prod.snd))
        ((ewm20 ((resampleLast candles).map Prod.snd)).drop 3))) p.1 with
  | none => right; left; rfl
  | some w =>
    have hw := lastLE_some_mem hl
    obtain ⟨pq, hpq, hpqv⟩ := List.mem_map.mp hw
    rw [← hpqv]
    have h2 := (List.of_mem_zip hpq).2
    obtain ⟨a, b, hab⟩ := mem_zipWith_exists h2
    rw [show (some pq.2).getD 0 = pq.2 from rfl, hab]
    exact ratSign_range (b - a)

theorem shift1fill0_length : ∀ l : List Int, (shift1fill0 l).length = l.length
  | [] => rfl
  | x :: xs => by
    show ((x :: xs).dropLast).length + 1 = xs.length + 1
    rw [List.length_dropLast]
    rfl

theorem shift1fill0_getD_succ (l : List Int) (i : Nat) (h : i + 1 < l.length) (d : Int) :
    (shift1fill0 l).getD (i + 1) d = l.getD i d := by
  cases l with
  | nil => simp at h
  | cons x xs =>
    show ((x :: xs).dropLast).getD i d = (x :: xs).getD i d
    have hlen : (x :: xs).length = xs.length + 1 := rfl
    have hi : i < ((x :: xs).dropLast).length := by
      rw [List.length_dropLast, hlen]
      rw [hlen] at h
      omega
    have hi2 : i < (x :: xs).length := by
      rw [hlen] at h ⊢
      omega
    rw [List.getD_eq_getElem _ _ hi, List.getD_eq_getElem _ _ hi2]
    exact List.getElem_dropLast ..

/-- Claim C7: for every non-empty ascending candle series the slope-sign
pipeline of the source (resample to hourly last values, EMA with factor 2/21
seeded from the first value, 3-period difference, np.sign, NaN-aware
carry-forward onto the series' own 5-minute index, fillna 0) agrees with the
spec description (map the differences of the 4th hourly bar onward to exactly
-1, 0, +1 and carry the last mapped hour at or before each primary timestamp
forward, leading timestamps 0); every emitted value is in -1, 0, 1; and the
previous-slope series is the slope series shifted by exactly one primary bar
with the first bar's previous equal to 0. -/
theorem C7_slope_sign (candles : List (Int × Rat)) (hne : candles ≠ [])
    (hasc : (candles.map Prod.fst).Pairwise (· < ·)) :
    slopeSign5m candles = slopeSign5mSpec candles ∧
    (∀ v ∈ (slopeSign5m candles).map Prod.snd, v = -1 ∨ v = 0 ∨ v = 1) ∧
    (shift1fill0 ((slopeSign5m candles).map Prod.snd)).length
      = ((slopeSign5m candles).map Prod.snd).length ∧
    (shift1fill0 ((slopeSign5m candles).map Prod.snd)).getD 0 99 = 0 ∧
    (∀ i, i + 1 < ((slopeSign5m candles).map Prod.snd).length →
      (shift1fill0 ((slopeSign5m candles).map Prod.snd)).getD (i + 1) 99
        = ((slopeSign5m candles).map Prod.snd).getD i 99) := by
  have heq := slopeSign5m_eq_spec candles hasc
  refine ⟨heq, ?_, shift1fill0_length _, ?_, fun i h => shift1fill0_getD_succ _ i h 99⟩
  · rw [heq]
    exact slopeSign5mSpec_range candles
  · cases hc : candles with
    | nil => exact absurd hc hne
    | cons c cs => rfl

theorem C7_witness :
    slopeSign5m wit7 = slopeSign5mSpec wit7 ∧
    (∀ v ∈ (slopeSign5m wit7).map Prod.snd, v = -1 ∨ v = 0 ∨ v = 1) ∧
    (shift1fill0 ((slopeSign5m wit7).map Prod.snd)).length
      = ((slopeSign5m wit7).map Prod.snd).length ∧
    (shift1fill0 ((slopeSign5m wit7).map Prod.snd)).getD 0 99 = 0 ∧
    (∀ i, i + 1 < ((slopeSign5m wit7).map Prod.snd).length →
      (shift1fill0 ((slopeSign5m wit7).map Prod.snd)).getD (i + 1) 99
        = ((slopeSign5m wit7).map Prod.snd).getD i 99) :=
  C7_slope_sign wit7 (by decide) (by decide)

theorem count_lt_eq_le (x : Rat) : ∀ w : List Rat,
    (w.filter (fun v => decide (v < x))).length
      + (w.filter (fun v => decide (v = x))).length ≤ w.length := by
  intro w
  induction w with
  | nil => simp
  | cons v w ih =>
    rcases lt_trichotomy v x with h | h | h
    · simp [List.filter_cons, h, ne_of_lt h]
      omega
    · simp [List.filter_cons, h, lt_irrefl]
      omega
    · simp [List.filter_cons, lt_asymm h, ne_of_gt h]
      omega

theorem count_le_split (x : Rat) : ∀ w : List Rat,
    (w.filter (fun v => decide (v ≤ x))).length
      = (w.filter (fun v => decide (v < x))).length
        + (w.filter (fun v => decide (v = x))).length := by
  intro w
  induction w with
  | nil => rfl
  | cons v w ih =>
    rcases lt_trichotomy v x with h | h | h
    · simp [List.filter_cons, le_of_lt h, h, ne_of_lt h]
      omega
    · simp [List.filter_cons, h, lt_irrefl]
      omega
    · simp [List.filter_cons, not_le.mpr h, lt_asymm h, ne_of_gt h]
      exact ih

theorem avgRankPct_bounds (w : List Rat) (x : Rat) (hx : x ∈ w) :
    0 ≤ avgRankPct w x ∧ avgRankPct w x ≤ 1 := by
  have hN0 : 0 < w.length := List.length_pos.mpr (List.ne_nil_of_mem hx)
  have hE0 : 0 < (w.filter (fun v => decide (v = x))).length := by
    apply List.length_pos.mpr
    apply List.ne_nil_of_mem
    show x ∈ _
    exact List.mem_filter.mpr ⟨hx, by simp⟩
  have hsum := count_lt_eq_le x w
  have hNq : (0 : Rat) < (w.length : Rat) := by exact_mod_cast hN0
  have hEq : (1 : Rat) ≤ ((w.filter (fun v => decide (v = x))).length : Rat) := by
    exact_mod_cast hE0
  have hsumq : ((w.filter (fun v => decide (v < x))).length : Rat)
      + ((w.filter (fun v => decide (v = x))).length : Rat) ≤ (w.length : Rat) := by
    exact_mod_cast hsum
  have hLq : (0 : Rat) ≤ ((w.filter (fun v => decide (v < x))).length : Rat) := by
    positivity
  constructor
  · unfold avgRankPct
    positivity
  · unfold avgRankPct
    rw [div_le_one hNq]
    linarith

theorem rollingRankPct_getD (W : Nat) (xs : List Rat) (i : Nat) (hi : i < xs.length) :
    (rollingRankPct W xs).getD i 99
      = avgRankPct ((xs.take (i+1)).drop ((xs.take (i+1)).length - W))
          (xs.getD i 0) := by
  unfold rollingRankPct
  have hlen : i < ((List.range xs.length).map (fun i =>
      avgRankPct ((xs.take (i+1)).drop ((xs.take (i+1)).length - W))
        (xs.getD i 0))).length := by
    rw [List.length_map, List.length_range]
    exact hi
  rw [List.getD_eq_getElem _ _ hlen, List.getElem_map, List.getElem_range]

theorem window_mem (W : Nat) (hW : 1 ≤ W) (xs : List Rat) (i : Nat)
    (hi : i < xs.length) :
    xs.getD i 0 ∈ (xs.take (i+1)).drop ((xs.take (i+1)).length - W) := by
  have hpre : (xs.take (i+1)).length = i + 1 := by
    rw [List.length_take]
    exact min_eq_left (by omega)
  set d := (xs.take (i+1)).length - W with hd
  have htake : xs.take (i+1) = xs.take i ++ [xs[i]] := by
    rw [List.take_succ, List.getElem?_eq_getElem hi]
    rfl
  have hile : d ≤ (xs.take i).length := by
    rw [hd, hpre, List.length_take]
    have hmin : min i xs.length = i := min_eq_left (by omega)
    omega
  rw [htake, List.drop_append_of_le_length hile]
  rw [List.getD_eq_getElem xs 0 hi]
  simp

/-- Claim C8 (counterexample): on the window 1,2,3,4,5 with new tying value 3
the rolling percentile rank is 7/12 (average rank 3.5 of 6 values), not the
0.6 the claim states. -/
theorem C8_counterexample :
    (rollingRankPct ROLLING_WINDOW xs8).getD 5 99 = 7/12 ∧ ((7 : Rat)/12) ≠ 3/5 := by
  constructor
  · rw [rollingRankPct_getD ROLLING_WINDOW xs8 5 (by decide)]
    norm_num [xs8, ROLLING_WINDOW, avgRankPct, List.filter]
  · norm_num

/-- Claim C8 (amended): the rolling percentile rank over a trailing window of
up to 8640 primary bars (minimum window 1) always lies in the interval 0 to 1
and equals the average-rank form of the fraction of window values at or below
the current value: it is (countBelow + countAtOrBelow + 1) / (2 n), which
reduces to countAtOrBelow / n when the current value is untied; on the window
1,2,3,4,5 with new value 3 (a tie) it yields exactly 7/12, not 0.6. -/
theorem C8_rolling_rank_amended :
    (∀ (xs : List Rat) (i : Nat), i < xs.length →
      0 ≤ (rollingRankPct ROLLING_WINDOW xs).getD i 99 ∧
      (rollingRankPct ROLLING_WINDOW xs).getD i 99 ≤ 1) ∧
    (∀ (w : List Rat) (x : Rat), x ∈ w →
      avgRankPct w x
        = (((w.filter (fun v => decide (v < x))).length : Rat)
            + ((w.filter (fun v => decide (v ≤ x))).length : Rat) + 1)
          / (2 * (w.length : Rat)) ∧
      ((w.filter (fun v => decide (v = x))).length = 1 →
        avgRankPct w x
          = ((w.filter (fun v => decide (v ≤ x))).length : Rat) / (w.length : Rat))) ∧
    (rollingRankPct ROLLING_WINDOW xs8).getD 5 99 = 7/12 := by
  refine ⟨?_, ?_, ?_⟩
  · intro xs i hi
    rw [rollingRankPct_getD ROLLING_WINDOW xs i hi]
    exact avgRankPct_bounds _ _ (window_mem ROLLING_WINDOW (by decide) xs i hi)
  · intro w x hx
    have hN0 : 0 < w.length := List.length_pos.mpr (List.ne_nil_of_mem hx)
    have hNq : ((w.length : Rat)) ≠ 0 := by
      have h1 : (0 : Rat) < (w.length : Rat) := by exact_mod_cast hN0
      linarith
    constructor
    · rw [count_le_split]
      unfold avgRankPct
      push_cast
      field_simp
      ring
    · intro hone
      rw [count_le_split, hone]
      unfold avgRankPct
      rw [hone]
      push_cast
      field_simp
  · rw [rollingRankPct_getD ROLLING_WINDOW xs8 5 (by decide)]
    norm_num [xs8, ROLLING_WINDOW, avgRankPct, List.filter]

theorem C8_witness :
    0 ≤ (rollingRankPct ROLLING_WINDOW xs8).getD 5 99 ∧
    (rollingRankPct ROLLING_WINDOW xs8).getD 5 99 ≤ 1 :=
  C8_rolling_rank_amended.1 xs8 5 (by decide)

/-- Claim C9: candle redelivery is idempotent. Upserting the same candle row
again replaces the stored row and leaves the store exactly as after the first
delivery; any stored row carrying the delivered key is the delivered row; and
therefore the feature table recomputed from the store after the redelivery is
identical to the one computed after the first delivery, for every
retained-history state. -/
theorem C9_idempotent :
    (∀ (store : List Candle) (c : Candle),
      upsertCandle (upsertCandle store c) c = upsertCandle store c) ∧
    (∀ (store : List Candle) (c r : Candle),
      r ∈ upsertCandle store c → r.ts = c.ts → r.symbol = c.symbol → r = c) ∧
    (∀ (store : List Candle) (c : Candle) (liqs : List LiqRow),
      computeFeatures
          (getCandlesQ (upsertCandle (upsertCandle store c) c) "BTC-USD" 8640)
          (getCandlesQ (upsertCandle (upsertCandle store c) c) "ETH-USD" 8640)
          (getLiquidationsQ liqs "BTC" 720)
        = computeFeatures
          (getCandlesQ (upsertCandle store c) "BTC-USD" 8640)
          (getCandlesQ (upsertCandle store c) "ETH-USD" 8640)
          (getLiquidationsQ liqs "BTC" 720)) := by
  have hupsert : ∀ (store : List Candle) (c : Candle),
      upsertCandle (upsertCandle store c) c = upsertCandle store c := by
    intro store c
    unfold upsertCandle
    rw [List.filter_append]
    have h1 : List.filter (fun r => ¬(r.ts = c.ts ∧ r.symbol = c.symbol)) [c] = [] := by
      simp
    rw [h1, List.append_nil]
    congr 1
    rw [List.filter_filter]
    apply List.filter_congr
    intro a ha
    exact Bool.and_self _
  refine ⟨hupsert, ?_, fun store c liqs => by rw [hupsert]⟩
  intro store c r hr hts hsym
  unfold upsertCandle at hr
  rcases List.mem_append.mp hr with hr | hr
  · have hmem := List.of_mem_filter hr
    have h2 : ¬ r.ts = c.ts ∨ ¬ r.symbol = c.symbol := by simpa using hmem
    rcases h2 with h2 | h2
    · exact absurd hts h2
    · exact absurd hsym h2
  · simpa using hr

theorem C9_witness : candB 300 2 = candB 300 2 :=
  C9_idempotent.2.1 [candB 300 1] (candB 300 2) (candB 300 2)
    (List.mem_append_right _ (List.mem_singleton.mpr rfl)) rfl rfl

/-- Claim C5 (counterexample): on a new BTC bar the orchestrator runs the
Signal Evaluator strictly before Check-exits, not after it as claimed: the
emitted trace is upsert, features, evaluate, check-exits, and the index of
the evaluator step is below the index of the check-exits step. -/
theorem C5_counterexample :
    (onCandle 1000 w5c (candB 600 1)).2
        = [Step.upsert, Step.features, Step.evaluate [], Step.checkExits] ∧
    (onCandle 1000 w5c (candB 600 1)).2.findIdx isEvalStep
      < (onCandle 1000 w5c (candB 600 1)).2.findIdx
          (fun s => s == Step.checkExits) := by
  constructor
  · rfl
  · decide

theorem computeFeatures_length (b e : List Candle) (l : List LiqRow) :
    (computeFeatures b e l).length = b.length := by
  unfold computeFeatures
  rw [List.length_map, List.length_range]
  exact (sortLE_perm (fun c => c.ts) b).length_eq

theorem processFold_mono (snap : String → SignalState) (ts : Int) (price : Rat) :
    ∀ (fires : List SignalFire) (d : DB) (t : Trade), t ∈ d.trades →
      t ∈ (fires.foldl (processStep snap ts price) d).trades
  | [], _, _, ht => ht
  | g :: gs, d, t, ht => by
    rw [List.foldl_cons]
    apply processFold_mono snap ts price gs
    unfold processStep
    by_cases hopen : (snap g.signal).open_trade_id = none
    · rw [if_pos hopen]
      exact List.mem_append_left _ ht
    · rw [if_neg hopen]
      exact ht

theorem processSignals_opens (ts : Int) (price : Rat) :
    ∀ (fires : List SignalFire) (snap : String → SignalState) (d : DB)
      (f : SignalFire), f ∈ fires → (snap f.signal).open_trade_id = none →
      ((fires.map (fun g => g.signal)).Nodup) →
      ∃ u ∈ (fires.foldl (processStep snap ts price) d).trades,
        u.signal = f.signal ∧ u.status = "OPEN" ∧ u.entry_ts = ts
  | [], _, _, f, hf, _, _ => absurd hf (List.not_mem_nil f)
  | g :: gs, snap, d, f, hf, hopen, hnd => by
    rw [List.foldl_cons]
    rcases List.mem_cons.mp hf with hcase | hf
    · have hg : (snap g.signal).open_trade_id = none := by
        rw [← hcase]
        exact hopen
      have hstep : processStep snap ts price d g
          = (openTrade d g.signal g.direction ts price g.hold_bars).1 := by
        unfold processStep
        rw [if_pos hg]
      rw [hstep]
      refine ⟨⟨d.nextId, g.signal, g.direction, ts, price, none, none,
        g.hold_bars, none, "OPEN"⟩, ?_, ?_, rfl, rfl⟩
      · apply processFold_mono
        exact List.mem_append_right _ (List.mem_singleton.mpr rfl)
      · rw [hcase]
    · rw [List.map_cons, List.nodup_cons] at hnd
      exact processSignals_opens ts price gs snap _ f hf hopen hnd.2

/-- Claim C5 (amended): on a new-bar BTC candle with sufficient retained data
the orchestrator runs, in this order: retention prune (at the hourly cadence
gate), feature recompute, then the Signal Evaluator, then Check-exits, then
Open-on-firing; exits are still resolved strictly before opens within the
same bar, so a trade maturing on that bar frees its signal's slot and the
firing of the same signal re-enters on the same bar. -/
theorem C5_orchestrator_amended :
    (∀ (now : Int) (w : World) (c : Candle),
      c.symbol = "BTC-USD" → c.ts ≠ w.lastBtcBarTs → dataOK (barW3 now w c).1 →
      ∃ fires rest,
        (onCandle now w c).2
          = (barW3 now w c).2
            ++ [Step.features, Step.evaluate fires, Step.checkExits] ++ rest
        ∧ (rest = [] ∨ rest = [Step.openFires]))
    ∧ (∀ (db : DB) (ts : Int) (price : Rat) (fires : List SignalFire)
        (f : SignalFire) (t : Trade) (db1 : DB),
        DBInv db → t ∈ db.trades → t.status = "OPEN" → dueB ts t →
        f ∈ fires → f.signal = t.signal →
        ((fires.map (fun g => g.signal)).Nodup) →
        checkExits db ts price = some db1 →
        ∃ u ∈ (processSignals db1 fires ts price).trades,
          u.signal = t.signal ∧ u.status = "OPEN" ∧ u.entry_ts = ts) := by
  constructor
  · intro now w c hsym hnew hdata
    have hne2 : computeFeatures (getCandlesQ (barW3 now w c).1.candles "BTC-USD" 8640)
        (getCandlesQ (barW3 now w c).1.candles "ETH-USD" 8640)
        (getLiquidationsQ (barW3 now w c).1.liqs "BTC" 720) ≠ [] := by
      intro hnil
      have hl := congrArg List.length hnil
      rw [computeFeatures_length] at hl
      unfold dataOK at hdata
      push_neg at hdata
      have h1 := hdata.1
      simp only [List.length_nil] at hl
      omega
    obtain ⟨lastRow, hlast⟩ :=
      Option.isSome_iff_exists.mp (List.getLast?_isSome.mpr hne2)
    simp only [onCandle]
    rw [if_neg (not_not_intro hsym), if_pos hdata, hlast]
    have hnb : ¬ (decide (c.ts ≠ w.lastBtcBarTs) = false) := by
      simp [hnew]
    dsimp only
    rw [if_neg hnb]
    cases hce : checkExits (barW3 now w c).1.db c.ts c.close with
    | none =>
      refine ⟨evaluateSignals lastRow.2 c.ts (barW3 now w c).1.isNewGateio
        (barW3 now w c).1.db.states, [], ?_, Or.inl rfl⟩
      simp
    | some db1 =>
      dsimp only
      by_cases hfe : (evaluateSignals lastRow.2 c.ts (barW3 now w c).1.isNewGateio
          (barW3 now w c).1.db.states).isEmpty = true
      · rw [if_pos hfe]
        refine ⟨evaluateSignals lastRow.2 c.ts (barW3 now w c).1.isNewGateio
          (barW3 now w c).1.db.states, [], ?_, Or.inl rfl⟩
        simp
      · rw [if_neg hfe]
        refine ⟨evaluateSignals lastRow.2 c.ts (barW3 now w c).1.isNewGateio
          (barW3 now w c).1.db.states, [Step.openFires], ?_, Or.inr rfl⟩
        simp
  · intro db ts price fires f t db1 hinv ht hop hdue hf hfs hnd hce
    obtain ⟨db1', heq, hinv1, _, _, hclst, _, _⟩ := checkExits_spec db ts price hinv
    rw [heq] at hce
    obtain rfl : db1' = db1 := Option.some.inj hce
    have hslot : (db1'.states f.signal).open_trade_id = none := by
      rw [hfs]
      exact hclst t ht hop hdue
    obtain ⟨u, hu, hus, huo, hue⟩ :=
      processSignals_opens ts price fires db1'.states db1' f hf hslot hnd
    exact ⟨u, hu, by rw [hus, hfs], huo, hue⟩

theorem C5_witness :
    ∃ fires rest,
      (onCandle 1000 w5c (candB 600 1)).2
        = (barW3 1000 w5c (candB 600 1)).2
          ++ [Step.features, Step.evaluate fires, Step.checkExits] ++ rest
      ∧ (rest = [] ∨ rest = [Step.openFires]) :=
  C5_orchestrator_amended.1 1000 w5c (candB 600 1) rfl (by decide) (by decide)
